import Mathlib

/-!
Verification of the Boggle word-search engine (fun/boggle/boggle.py).

The board, its adjacency geometry, the single-word search (check), the
exhaustive search (all_words) and the sorted-dictionary primitives
(bisect_left, the prefix test) are embedded as executable Lean functions.
Python strings are lists of characters; Python faults (IndexError) are
modelled by Option, with none meaning the call raises.  The recursions of
_check_helper and _all_words_helper are not structural (a tile may hold the
empty string), but every recursive call inserts a fresh in-range index into
the visited set, so a fuel parameter of letters.length + 1 is always
sufficient; the totality theorems below prove exactly that.
-/

namespace Boggle

/-- A Python string, modelled as its list of characters. -/
abbrev Str := List Char

/-- Python string comparison s < t: lexicographic by code point, a proper
prefix compares smaller. -/
def strLt : Str → Str → Bool
  | [], [] => false
  | [], _ :: _ => true
  | _ :: _, [] => false
  | a :: as, b :: bs => if a < b then true else if b < a then false else strLt as bs

/-- Python s.startswith(p): startswith s p is true iff p is a prefix of s. -/
def startswith : Str → Str → Bool
  | _, [] => true
  | [], _ :: _ => false
  | a :: as, b :: bs => a == b && startswith as bs

/-- The board (class Board): side length, row-major tiles, language flag. -/
structure Board where
  size : Nat
  letters : List Str
  english : Bool

/-- Board.top_edge. -/
def top_edge (size index : Nat) : Bool := decide (index < size)

/-- Board.bottom_edge. -/
def bottom_edge (size index : Nat) : Bool := decide (size * (size - 1) ≤ index)

/-- Board.left_edge. -/
def left_edge (size index : Nat) : Bool := decide (index % size = 0)

/-- Board.right_edge. -/
def right_edge (size index : Nat) : Bool := decide (index % size = size - 1)

/-- Board.above. -/
def above (size index : Nat) : Nat := index - size

/-- Board.below. -/
def below (size index : Nat) : Nat := index + size

/-- Board.left. -/
def left (index : Nat) : Nat := index - 1

/-- Board.right. -/
def right (index : Nat) : Nat := index + 1

/-- Board.adjacent: the neighbour indices of index, in the order the Python
generator yields them.  Only size is consulted. -/
def adjacent (size index : Nat) : List Nat :=
  (if top_edge size index then []
   else
     (if left_edge size index then [] else [above size (left index)]) ++
     [above size index] ++
     (if right_edge size index then [] else [above size (right index)])) ++
  (if left_edge size index then [] else [left index]) ++
  (if right_edge size index then [] else [right index]) ++
  (if bottom_edge size index then []
   else
     (if left_edge size index then [] else [below size (left index)]) ++
     [below size index] ++
     (if right_edge size index then [] else [below size (right index)]))

/-- Loop of the module-level find: first position i ≥ start with lst[i] = item. -/
def findGo (item : Str) (start : Nat) : List Str → Nat → Option Nat
  | [], _ => none
  | x :: rest, i => if x = item ∧ start ≤ i then some i else findGo item start rest (i + 1)

/-- find(lst, item, start): the first index ≥ start of item in lst, none for -1. -/
def find (lst : List Str) (item : Str) (start : Nat) : Option Nat :=
  findGo item start lst 0

/-- The first-unit extraction at the top of Board.check: an English word
beginning with the digraph takes both characters as one unit, otherwise the
single leading character; the empty word raises IndexError (none). -/
def first_unit (english : Bool) (word : Str) : Option (Str × Str) :=
  if english && startswith word ['q', 'u'] then some (word.take 2, word.drop 2)
  else
    match word with
    | [] => none
    | c :: rest => some ([c], rest)

/-- The for-loop of Board._check_helper over the adjacency sequence.  f is the
recursive continuation; none models an IndexError escaping the call. -/
def adj_loop (f : Str → Nat → Finset Nat → Option Bool) (letters : List Str)
    (word : Str) (used : Finset Nat) : List Nat → Option Bool
  | [] => some false
  | index :: rest =>
    if index ∈ used then adj_loop f letters word used rest
    else
      match letters[index]? with
      | none => none
      | some letter =>
        if startswith word letter then
          match f (word.drop letter.length) index (insert index used) with
          | none => none
          | some true => some true
          | some false => adj_loop f letters word used rest
        else adj_loop f letters word used rest

/-- Board._check_helper.  Each recursive call inserts a fresh in-range index
into used, so fuel letters.length + 1 never runs out (proved below). -/
def check_helper (b : Board) : Nat → Str → Nat → Finset Nat → Option Bool
  | 0, _, _, _ => none
  | fuel + 1, word, last_index, used =>
    if word = [] then some true
    else adj_loop (check_helper b fuel) b.letters word used (adjacent b.size last_index)

/-- The while-loop of Board.check over successive occurrences of the first
unit.  The occurrence index strictly increases, so fuel letters.length + 1 is
always enough (proved below). -/
def check_loop (b : Board) (rest : Str) (first : Str) : Nat → Option Nat → Option Bool
  | _, none => some false
  | 0, some _ => none
  | fuel + 1, some index =>
    match check_helper b (b.letters.length + 1) rest index ({index} : Finset Nat) with
    | none => none
    | some true => some true
    | some false => check_loop b rest first fuel (find b.letters first (index + 1))

/-- Board.check. -/
def Board.check (b : Board) (word : Str) : Option Bool :=
  match first_unit b.english word with
  | none => none
  | some (first, rest) =>
    check_loop b rest first (b.letters.length + 1) (find b.letters first 0)

/-- The loop of bisect.bisect_left; each iteration shrinks hi - lo, so fuel
a.length suffices and exhaustion coincides with loop exit. -/
def bisect_loop (a : List Str) (x : Str) : Nat → Nat → Nat → Nat
  | 0, lo, _ => lo
  | fuel + 1, lo, hi =>
    if lo < hi then
      if strLt (a.getD ((lo + hi) / 2) []) x then bisect_loop a x fuel ((lo + hi) / 2 + 1) hi
      else bisect_loop a x fuel lo ((lo + hi) / 2)
    else lo

/-- bisect.bisect_left a x: the insertion point of x in the sorted list a. -/
def bisect_left (a : List Str) (x : Str) : Nat :=
  bisect_loop a x a.length 0 a.length

/-- The engine's prefix test (the pruning step of Board._all_words_helper):
binary-search the insertion point of p, then test whether the entry at that
point, if any, starts with p. -/
def hasPref (dct : List Str) (p : Str) : Bool :=
  if bisect_left dct p = dct.length then false
  else startswith (dct.getD (bisect_left dct p) []) p

/-- The for-loop of Board._all_words_helper over the adjacency sequence; the
yields of the recursive calls are concatenated in order. -/
def words_adj_loop (f : Str → Nat → Finset Nat → Option (List Str)) (letters : List Str)
    (word : Str) (used : Finset Nat) : List Nat → Option (List Str)
  | [] => some []
  | index :: rest =>
    if index ∈ used then words_adj_loop f letters word used rest
    else
      match letters[index]? with
      | none => none
      | some letter =>
        match f (word ++ letter) index (insert index used) with
        | none => none
        | some ws =>
          match words_adj_loop f letters word used rest with
          | none => none
          | some ws2 => some (ws ++ ws2)

/-- Board._all_words_helper, eagerly collecting the generator's yields. -/
def all_words_helper (b : Board) (dct : List Str) (min_length : Nat) :
    Nat → Str → Nat → Finset Nat → Option (List Str)
  | 0, _, _, _ => none
  | fuel + 1, word, last_index, used =>
    if bisect_left dct word = dct.length then some []
    else
      if startswith (dct.getD (bisect_left dct word) []) word then
        match words_adj_loop (fun w i u => all_words_helper b dct min_length fuel w i u)
            b.letters word used (adjacent b.size last_index) with
        | none => none
        | some ws =>
          some ((if dct.getD (bisect_left dct word) [] = word ∧ min_length ≤ word.length
                 then [word] else []) ++ ws)
      else
        some (if dct.getD (bisect_left dct word) [] = word ∧ min_length ≤ word.length
              then [word] else [])

/-- The for-loop of Board.all_words over all starting indices, accumulating
the result set. -/
def all_words_loop (b : Board) (dct : List Str) (min_length : Nat) :
    List Nat → Finset Str → Option (Finset Str)
  | [], acc => some acc
  | i :: rest, acc =>
    match b.letters[i]? with
    | none => none
    | some letter =>
      match all_words_helper b dct min_length (b.letters.length + 1) letter i
          ({i} : Finset Nat) with
      | none => none
      | some ws => all_words_loop b dct min_length rest (acc ∪ ws.toFinset)

/-- Board.all_words. -/
def Board.all_words (b : Board) (dct : List Str) (min_length : Nat) : Option (Finset Str) :=
  all_words_loop b dct min_length (List.range (b.size * b.size)) ∅

/-- Board.from_list: the side length is the integer square root of the tile
count (int(math.sqrt(n)), exact for every length arising here); the random
sampling performed by Board.__init__ is immediately overwritten by the given
letters, and the default flags leave the board English. -/
def Board.from_list (letters : List Str) : Board :=
  { size := Nat.sqrt letters.length, letters := letters, english := true }

/-- The Grid invariant of the data model: side length at least 3 and exactly
size * size tiles. -/
def wf (b : Board) : Prop := 3 ≤ b.size ∧ b.letters.length = b.size * b.size

/-- The dictionary precondition: sorted ascending (non-strictly) by the
Python string order. -/
def sortedAsc (l : List Str) : Prop := l.Pairwise (fun a b => strLt b a = false)

/-- The 4×4 test board e z o a / l t a r / n e l k / t s i b (an English
board, as Board.from_list produces). -/
def ezoa : Board :=
  { size := 4
    letters :=
      ["e", "z", "o", "a", "l", "t", "a", "r", "n", "e", "l", "k", "t", "s", "i", "b"].map
        String.data
    english := true }

/-- The word spelt by five consecutive "qu" tiles. -/
def quWord : Str := String.data "quququququ"

/-- A one-word dictionary containing only quWord. -/
def dctQu : List Str := [quWord]

/-- A well-formed 3×3 board whose "qu" tiles at indices 0, 1, 2, 5, 8 form a
simple path of five tiles. -/
def quBoard : Board :=
  { size := 3
    letters := ["qu", "qu", "qu", "z", "z", "qu", "z", "z", "qu"].map String.data
    english := true }

/-- A well-formed 3×3 board of single-character tiles with adjacent "q" and
"u" tiles but no bound "qu" tile. -/
def quSingles : Board :=
  { size := 3
    letters := ["q", "u", "e", "s", "t", "a", "b", "c", "d"].map String.data
    english := true }

/-- A one-word dictionary containing only "tar". -/
def dct3 : List Str := [String.data "tar"]

/-- Claim C1: on the fixed 4×4 row-major grid e z o a / l t a r / n e l k /
t s i b, check returns true for "tar" and for "listen", and returns false for
"tat" and for "quest". -/
theorem c1_check_concrete :
    ezoa.check (String.data "tar") = some true ∧
    ezoa.check (String.data "listen") = some true ∧
    ezoa.check (String.data "tat") = some false ∧
    ezoa.check (String.data "quest") = some false := by
  refine ⟨?_, ?_, ?_, ?_⟩ <;> decide

/-! ### Order facts about the Python string comparison -/

theorem strLt_irrefl (a : Str) : strLt a a = false := by
  induction a with
  | nil => rfl
  | cons c cs ih => simp [strLt, ih]

theorem strLt_trans {a b c : Str} (h1 : strLt a b = true) (h2 : strLt b c = true) :
    strLt a c = true := by
  induction a generalizing b c with
  | nil =>
    cases b with
    | nil => simp [strLt] at h1
    | cons y ys =>
      cases c with
      | nil => simp [strLt] at h2
      | cons z zs => simp [strLt]
  | cons x xs ih =>
    cases b with
    | nil => simp [strLt] at h1
    | cons y ys =>
      cases c with
      | nil => simp [strLt] at h2
      | cons z zs =>
        rcases lt_trichotomy x y with hxy | rfl | hxy
        · rcases lt_trichotomy y z with hyz | rfl | hyz
          · simp [strLt, hxy.trans hyz]
          · simp [strLt, hxy]
          · rw [strLt, if_neg (lt_asymm hyz), if_pos hyz] at h2
            exact absurd h2 (by simp)
        · rw [strLt, if_neg (lt_irrefl x), if_neg (lt_irrefl x)] at h1
          rcases lt_trichotomy x z with hxz | rfl | hxz
          · simp [strLt, hxz]
          · rw [strLt, if_neg (lt_irrefl x), if_neg (lt_irrefl x)] at h2 ⊢
            exact ih h1 h2
          · rw [strLt, if_neg (lt_asymm hxz), if_pos hxz] at h2
            exact absurd h2 (by simp)
        · rw [strLt, if_neg (lt_asymm hxy), if_pos hxy] at h1
          exact absurd h1 (by simp)

theorem strLt_total (a b : Str) : strLt a b = true ∨ a = b ∨ strLt b a = true := by
  induction a generalizing b with
  | nil =>
    cases b with
    | nil => right; left; rfl
    | cons y ys => left; rfl
  | cons x xs ih =>
    cases b with
    | nil => right; right; rfl
    | cons y ys =>
      rcases lt_trichotomy x y with hxy | rfl | hxy
      · left; simp [strLt, hxy]
      · rcases ih ys with h | rfl | h
        · left; rw [strLt, if_neg (lt_irrefl x), if_neg (lt_irrefl x)]; exact h
        · right; left; rfl
        · right; right; rw [strLt, if_neg (lt_irrefl x), if_neg (lt_irrefl x)]; exact h
      · right; right; simp [strLt, hxy]

theorem strLt_asymm {a b : Str} (h : strLt a b = true) : strLt b a = false := by
  cases hba : strLt b a with
  | false => rfl
  | true => exact absurd (strLt_irrefl a) (by simp [strLt_trans h hba])

theorem strLt_lt_of_le_of_lt {a b c : Str} (hba : strLt b a = false)
    (hbc : strLt b c = true) : strLt a c = true := by
  rcases strLt_total a b with h | rfl | h
  · exact strLt_trans h hbc
  · exact hbc
  · exact absurd hba (by simp [h])

theorem strLt_le_trans {a b c : Str} (hba : strLt b a = false)
    (hcb : strLt c b = false) : strLt c a = false := by
  cases hca : strLt c a with
  | false => rfl
  | true =>
    rcases strLt_total a b with h | rfl | h
    · exact absurd hcb (by simp [strLt_trans hca h])
    · exact absurd hcb (by simp [hca])
    · exact absurd hba (by simp [h])

/-! ### Facts about the Python prefix test -/

theorem startswith_drop {s p : Str} (h : startswith s p = true) :
    p ++ s.drop p.length = s := by
  induction p generalizing s with
  | nil => simp
  | cons c cs ih =>
    cases s with
    | nil => simp [startswith] at h
    | cons d ds =>
      rw [startswith, Bool.and_eq_true, beq_iff_eq] at h
      obtain ⟨rfl, h2⟩ := h
      simpa using ih h2

theorem startswith_take {s p : Str} (h : startswith s p = true) :
    s.take p.length = p := by
  have := startswith_drop h
  calc s.take p.length = ((p ++ s.drop p.length).take p.length) := by rw [this]
  _ = p := List.take_left p _

theorem startswith_not_lt {w p : Str} (h : startswith w p = true) :
    strLt w p = false := by
  induction p generalizing w with
  | nil => cases w <;> rfl
  | cons c cs ih =>
    cases w with
    | nil => simp [startswith] at h
    | cons d ds =>
      rw [startswith, Bool.and_eq_true, beq_iff_eq] at h
      obtain ⟨rfl, h2⟩ := h
      rw [strLt, if_neg (lt_irrefl d), if_neg (lt_irrefl d)]
      exact ih h2

theorem startswith_sandwich {p w s : Str} (hw : startswith w p = true)
    (h1 : strLt s p = false) (h2 : strLt w s = false) : startswith s p = true := by
  induction p generalizing w s with
  | nil => cases s <;> rfl
  | cons c cs ih =>
    cases w with
    | nil => simp [startswith] at hw
    | cons d ds =>
      rw [startswith, Bool.and_eq_true, beq_iff_eq] at hw
      obtain ⟨rfl, hw2⟩ := hw
      cases s with
      | nil => simp [strLt] at h1
      | cons e es =>
        rcases lt_trichotomy d e with hde | rfl | hde
        · rw [strLt, if_pos hde] at h2
          exact absurd h2 (by simp)
        · rw [strLt, if_neg (lt_irrefl d), if_neg (lt_irrefl d)] at h1 h2
          rw [startswith, Bool.and_eq_true, beq_iff_eq]
          exact ⟨rfl, ih hw2 h1 h2⟩
        · rw [strLt, if_pos hde] at h1
          exact absurd h1 (by simp)

/-! ### Facts about find -/

theorem findGo_some {item : Str} {start : Nat} :
    ∀ {lst : List Str} {k i : Nat}, findGo item start lst k = some i →
      k ≤ i ∧ start ≤ i ∧ i - k < lst.length ∧ lst.getD (i - k) [] = item := by
  intro lst
  induction lst with
  | nil => intro k i h; simp [findGo] at h
  | cons x rest ih =>
    intro k i h
    rw [findGo] at h
    split at h
    · rename_i hcond
      rw [Option.some.injEq] at h
      subst h
      refine ⟨le_refl _, hcond.2, by simp, ?_⟩
      simpa using hcond.1
    · obtain ⟨h1, h2, h3, h4⟩ := ih h
      refine ⟨by omega, h2, by simp; omega, ?_⟩
      rw [show i - k = (i - (k + 1)) + 1 by omega, List.getD_cons_succ]
      exact h4

theorem find_some {lst : List Str} {item : Str} {start i : Nat}
    (h : find lst item start = some i) :
    start ≤ i ∧ i < lst.length ∧ lst.getD i [] = item := by
  obtain ⟨-, h2, h3, h4⟩ := findGo_some h
  rw [Nat.sub_zero] at h3 h4
  exact ⟨h2, h3, h4⟩

theorem findGo_none {item : Str} {start : Nat} {lst : List Str}
    (h : ∀ t ∈ lst, t ≠ item) : ∀ k, findGo item start lst k = none := by
  induction lst with
  | nil => intro k; rfl
  | cons x rest ih =>
    intro k
    rw [findGo, if_neg, ih fun t ht => h t (List.mem_cons_of_mem x ht)]
    rintro ⟨rfl, -⟩
    exact h x (List.mem_cons_self x rest) rfl

theorem find_none {lst : List Str} {item : Str} {start : Nat}
    (h : ∀ t ∈ lst, t ≠ item) : find lst item start = none :=
  findGo_none h 0

/-! ### Correctness of bisect_left on a sorted list -/

theorem sorted_getD {a : List Str} (hs : sortedAsc a) {j k : Nat} (hjk : j < k)
    (hk : k < a.length) : strLt (a.getD k []) (a.getD j []) = false := by
  have hj : j < a.length := lt_trans hjk hk
  rw [List.getD_eq_getElem a [] hk, List.getD_eq_getElem a [] hj]
  exact List.pairwise_iff_getElem.mp hs j k hj hk hjk

theorem bisect_loop_le {a : List Str} {x : Str} :
    ∀ (fuel : Nat) {lo hi : Nat}, lo ≤ hi →
      lo ≤ bisect_loop a x fuel lo hi ∧ bisect_loop a x fuel lo hi ≤ hi := by
  intro fuel
  induction fuel with
  | zero => intro lo hi h; exact ⟨le_refl _, h⟩
  | succ fuel ih =>
    intro lo hi h
    rw [bisect_loop]
    split
    · rename_i hlt
      split
      · have h2 := ih (show (lo + hi) / 2 + 1 ≤ hi by omega)
        exact ⟨by omega, h2.2⟩
      · have h2 := ih (show lo ≤ (lo + hi) / 2 by omega)
        exact ⟨h2.1, by omega⟩
    · exact ⟨le_refl _, h⟩

theorem bisect_loop_correct {a : List Str} {x : Str} (hs : sortedAsc a) :
    ∀ (fuel : Nat) {lo hi : Nat}, hi ≤ a.length → lo ≤ hi → hi - lo ≤ fuel →
      (∀ k, k < lo → strLt (a.getD k []) x = true) →
      (∀ k, hi ≤ k → k < a.length → strLt (a.getD k []) x = false) →
      (∀ k, k < bisect_loop a x fuel lo hi → strLt (a.getD k []) x = true) ∧
      (∀ k, bisect_loop a x fuel lo hi ≤ k → k < a.length → strLt (a.getD k []) x = false) := by
  intro fuel
  induction fuel with
  | zero =>
    intro lo hi h1 h2 h3 hlow hhigh
    simp only [bisect_loop]
    have : hi = lo := by omega
    subst this
    exact ⟨hlow, hhigh⟩
  | succ fuel ih =>
    intro lo hi h1 h2 h3 hlow hhigh
    rw [bisect_loop]
    split
    · rename_i hlt
      split
      · rename_i hmid
        refine ih (show hi ≤ a.length from h1) (by omega) (by omega) ?_ hhigh
        intro k hk
        rcases lt_or_ge k lo with h | h
        · exact hlow k h
        · rcases eq_or_lt_of_le (show k ≤ (lo + hi) / 2 by omega) with rfl | hlt2
          · exact hmid
          · exact strLt_lt_of_le_of_lt (sorted_getD hs hlt2 (by omega)) hmid
      · rename_i hmid
        have hmid' : strLt (a.getD ((lo + hi) / 2) []) x = false := by
          simpa using hmid
        refine ih (show (lo + hi) / 2 ≤ a.length by omega) (by omega) (by omega) hlow ?_
        intro k hk hk2
        rcases eq_or_lt_of_le hk with heq | hlt2
        · rw [← heq]; exact hmid'
        · exact strLt_le_trans hmid' (sorted_getD hs hlt2 hk2)
    · have : hi = lo := by omega
      subst this
      exact ⟨hlow, hhigh⟩

theorem bisect_left_le (a : List Str) (x : Str) : bisect_left a x ≤ a.length :=
  (bisect_loop_le a.length (Nat.zero_le _)).2

theorem bisect_left_correct {a : List Str} {x : Str} (hs : sortedAsc a) :
    (∀ k, k < bisect_left a x → strLt (a.getD k []) x = true) ∧
    (∀ k, bisect_left a x ≤ k → k < a.length → strLt (a.getD k []) x = false) :=
  bisect_loop_correct hs a.length (le_refl _) (Nat.zero_le _) (by omega)
    (fun k hk => absurd hk (Nat.not_lt_zero k)) (fun k hk hk2 => absurd hk2 (by omega))

/-- Claim C2: for every dictionary sorted ascending by code point and every
string p, the engine's prefix test (binary-search the insertion point of p,
then test whether the entry at that point, if any, starts with p) returns
true iff some element of the list starts with p. -/
theorem c2_hasPref_iff (dct : List Str) (p : Str) (hs : sortedAsc dct) :
    hasPref dct p = true ↔ ∃ w ∈ dct, startswith w p = true := by
  obtain ⟨hA, hB⟩ := bisect_left_correct (x := p) hs
  constructor
  · intro h
    rw [hasPref] at h
    split at h
    · exact absurd h (by simp)
    · rename_i hne
      have hlt : bisect_left dct p < dct.length :=
        lt_of_le_of_ne (bisect_left_le dct p) hne
      refine ⟨dct.getD (bisect_left dct p) [], ?_, h⟩
      rw [List.getD_eq_getElem dct [] hlt]
      exact List.getElem_mem hlt
  · rintro ⟨w, hw, hsw⟩
    obtain ⟨k, hk, rfl⟩ := List.mem_iff_getElem.mp hw
    have hwp : strLt dct[k] p = false := startswith_not_lt hsw
    have hip : bisect_left dct p ≤ k := by
      by_contra hc
      push_neg at hc
      have := hA k hc
      rw [List.getD_eq_getElem dct [] hk] at this
      rw [this] at hwp
      exact absurd hwp (by simp)
    have hlt : bisect_left dct p < dct.length := lt_of_le_of_lt hip hk
    rw [hasPref, if_neg (by omega)]
    refine startswith_sandwich hsw (hB _ (le_refl _) hlt) ?_
    rcases eq_or_lt_of_le hip with heq | hlt2
    · subst heq
      rw [List.getD_eq_getElem dct [] hlt]
      exact strLt_irrefl _
    · have := sorted_getD hs hlt2 hk
      rw [List.getD_eq_getElem dct [] hk] at this
      exact this

/-- Witness for C2 at a concrete sorted dictionary and prefix. -/
theorem c2_witness :
    sortedAsc dct3 ∧
      (hasPref dct3 (String.data "ta") = true ↔
        ∃ w ∈ dct3, startswith w (String.data "ta") = true) := by
  have hs : sortedAsc dct3 := List.pairwise_singleton _ _
  exact ⟨hs, c2_hasPref_iff dct3 (String.data "ta") hs⟩

/-! ### Geometry of the adjacency relation -/

theorem mul_pred_add (size r : Nat) (h : 1 ≤ r) : size * r = size * (r - 1) + size := by
  obtain ⟨r', rfl⟩ : ∃ r', r = r' + 1 := ⟨r - 1, by omega⟩
  simp [Nat.mul_succ]

theorem rowcol_of (size a b : Nat) (hpos : 0 < size) (hb : b < size) :
    (size * a + b) / size = a ∧ (size * a + b) % size = b := by
  constructor
  · rw [Nat.mul_add_div hpos, Nat.div_eq_of_lt hb, Nat.add_zero]
  · rw [Nat.mul_add_mod, Nat.mod_eq_of_lt hb]

theorem mem_ite_nil {b : Bool} {l : List Nat} {j : Nat} :
    (j ∈ if b then ([] : List Nat) else l) ↔ b = false ∧ j ∈ l := by
  cases b <;> simp

theorem adjacent_cases {size i j : Nat} (h : j ∈ adjacent size i) :
    (top_edge size i = false ∧ left_edge size i = false ∧ j = i - 1 - size) ∨
    (top_edge size i = false ∧ j = i - size) ∨
    (top_edge size i = false ∧ right_edge size i = false ∧ j = i + 1 - size) ∨
    (left_edge size i = false ∧ j = i - 1) ∨
    (right_edge size i = false ∧ j = i + 1) ∨
    (bottom_edge size i = false ∧ left_edge size i = false ∧ j = i - 1 + size) ∨
    (bottom_edge size i = false ∧ j = i + size) ∨
    (bottom_edge size i = false ∧ right_edge size i = false ∧ j = i + 1 + size) := by
  simp only [adjacent, List.mem_append, mem_ite_nil, List.mem_singleton, List.mem_cons,
    List.not_mem_nil, or_false, above, below, left, right] at h
  rcases h with ((⟨ht, (⟨hl, rfl⟩ | rfl) | ⟨hrg, rfl⟩⟩ | ⟨hl, rfl⟩) | ⟨hrg, rfl⟩) |
    ⟨hb, (⟨hl, rfl⟩ | rfl) | ⟨hrg, rfl⟩⟩
  · exact Or.inl ⟨ht, hl, rfl⟩
  · exact Or.inr (Or.inl ⟨ht, rfl⟩)
  · exact Or.inr (Or.inr (Or.inl ⟨ht, hrg, rfl⟩))
  · exact Or.inr (Or.inr (Or.inr (Or.inl ⟨hl, rfl⟩)))
  · exact Or.inr (Or.inr (Or.inr (Or.inr (Or.inl ⟨hrg, rfl⟩))))
  · exact Or.inr (Or.inr (Or.inr (Or.inr (Or.inr (Or.inl ⟨hb, hl, rfl⟩)))))
  · exact Or.inr (Or.inr (Or.inr (Or.inr (Or.inr (Or.inr (Or.inl ⟨hb, rfl⟩))))))
  · exact Or.inr (Or.inr (Or.inr (Or.inr (Or.inr (Or.inr (Or.inr ⟨hb, hrg, rfl⟩))))))

theorem adjacent_mem_spec {size i j : Nat} (h3 : 3 ≤ size) (hi : i < size * size)
    (hj : j ∈ adjacent size i) :
    j < size * size ∧
      (j / size + 1 = i / size ∨ j / size = i / size ∨ j / size = i / size + 1) ∧
      (j % size + 1 = i % size ∨ j % size = i % size ∨ j % size = i % size + 1) ∧
      ¬(j / size = i / size ∧ j % size = i % size) := by
  have hpos : 0 < size := by omega
  obtain ⟨r, c, hdm, hclt, hr, hc⟩ :
      ∃ r c, size * r + c = i ∧ c < size ∧ i / size = r ∧ i % size = c :=
    ⟨i / size, i % size, Nat.div_add_mod i size, Nat.mod_lt i hpos, rfl, rfl⟩
  rw [hr, hc]
  have hrlt : r < size := by rw [← hr]; exact (Nat.div_lt_iff_lt_mul hpos).mpr hi
  rcases adjacent_cases hj with ⟨ht, hl, rfl⟩ | ⟨ht, rfl⟩ | ⟨ht, hrg, rfl⟩ | ⟨hl, rfl⟩ |
    ⟨hrg, rfl⟩ | ⟨hb, hl, rfl⟩ | ⟨hb, rfl⟩ | ⟨hb, hrg, rfl⟩
  · simp only [top_edge, decide_eq_false_iff_not, not_lt] at ht
    simp only [left_edge, decide_eq_false_iff_not] at hl
    rw [hc] at hl
    have hr1 : 1 ≤ r := by
      rcases Nat.eq_zero_or_pos r with h0 | h1
      · subst h0; simp at hdm; omega
      · exact h1
    have hmulr : size * r = size * (r - 1) + size := mul_pred_add size r hr1
    have hj1 : i - 1 - size = size * (r - 1) + (c - 1) := by omega
    obtain ⟨hd, hm⟩ := rowcol_of size (r - 1) (c - 1) hpos (by omega)
    rw [hj1, hd, hm]
    exact ⟨by omega, by omega, by omega, by omega⟩
  · simp only [top_edge, decide_eq_false_iff_not, not_lt] at ht
    have hr1 : 1 ≤ r := by
      rcases Nat.eq_zero_or_pos r with h0 | h1
      · subst h0; simp at hdm; omega
      · exact h1
    have hmulr : size * r = size * (r - 1) + size := mul_pred_add size r hr1
    have hj1 : i - size = size * (r - 1) + c := by omega
    obtain ⟨hd, hm⟩ := rowcol_of size (r - 1) c hpos hclt
    rw [hj1, hd, hm]
    exact ⟨by omega, by omega, by omega, by omega⟩
  · simp only [top_edge, decide_eq_false_iff_not, not_lt] at ht
    simp only [right_edge, decide_eq_false_iff_not] at hrg
    rw [hc] at hrg
    have hr1 : 1 ≤ r := by
      rcases Nat.eq_zero_or_pos r with h0 | h1
      · subst h0; simp at hdm; omega
      · exact h1
    have hmulr : size * r = size * (r - 1) + size := mul_pred_add size r hr1
    have hj1 : i + 1 - size = size * (r - 1) + (c + 1) := by omega
    obtain ⟨hd, hm⟩ := rowcol_of size (r - 1) (c + 1) hpos (by omega)
    rw [hj1, hd, hm]
    exact ⟨by omega, by omega, by omega, by omega⟩
  · simp only [left_edge, decide_eq_false_iff_not] at hl
    rw [hc] at hl
    have hj1 : i - 1 = size * r + (c - 1) := by omega
    obtain ⟨hd, hm⟩ := rowcol_of size r (c - 1) hpos (by omega)
    rw [hj1, hd, hm]
    exact ⟨by omega, by omega, by omega, by omega⟩
  · simp only [right_edge, decide_eq_false_iff_not] at hrg
    rw [hc] at hrg
    have hj1 : i + 1 = size * r + (c + 1) := by omega
    obtain ⟨hd, hm⟩ := rowcol_of size r (c + 1) hpos (by omega)
    have hmul1 : size * (r + 1) = size * r + size := Nat.mul_succ size r
    have hmul2 : size * (r + 1) ≤ size * size := Nat.mul_le_mul_left size (by omega)
    rw [hj1, hd, hm]
    exact ⟨by omega, by omega, by omega, by omega⟩
  · simp only [bottom_edge, decide_eq_false_iff_not, not_le] at hb
    simp only [left_edge, decide_eq_false_iff_not] at hl
    rw [hc] at hl
    have hcomm : (size - 1) * size = size * (size - 1) := Nat.mul_comm _ _
    have hrb : r < size - 1 := by
      rw [← hr]; exact (Nat.div_lt_iff_lt_mul hpos).mpr (by omega)
    have hmul1 : size * (r + 1) = size * r + size := Nat.mul_succ size r
    have hmul2 : size * (r + 1) ≤ size * (size - 1) := Nat.mul_le_mul_left size (by omega)
    have e1 : size * (size - 1) + size = size * size := (mul_pred_add size size (by omega)).symm
    have hj1 : i - 1 + size = size * (r + 1) + (c - 1) := by omega
    obtain ⟨hd, hm⟩ := rowcol_of size (r + 1) (c - 1) hpos (by omega)
    rw [hj1, hd, hm]
    exact ⟨by omega, by omega, by omega, by omega⟩
  · simp only [bottom_edge, decide_eq_false_iff_not, not_le] at hb
    have hcomm : (size - 1) * size = size * (size - 1) := Nat.mul_comm _ _
    have hrb : r < size - 1 := by
      rw [← hr]; exact (Nat.div_lt_iff_lt_mul hpos).mpr (by omega)
    have hmul1 : size * (r + 1) = size * r + size := Nat.mul_succ size r
    have hmul2 : size * (r + 1) ≤ size * (size - 1) := Nat.mul_le_mul_left size (by omega)
    have e1 : size * (size - 1) + size = size * size := (mul_pred_add size size (by omega)).symm
    have hj1 : i + size = size * (r + 1) + c := by omega
    obtain ⟨hd, hm⟩ := rowcol_of size (r + 1) c hpos hclt
    rw [hj1, hd, hm]
    exact ⟨by omega, by omega, by omega, by omega⟩
  · simp only [bottom_edge, decide_eq_false_iff_not, not_le] at hb
    simp only [right_edge, decide_eq_false_iff_not] at hrg
    rw [hc] at hrg
    have hcomm : (size - 1) * size = size * (size - 1) := Nat.mul_comm _ _
    have hrb : r < size - 1 := by
      rw [← hr]; exact (Nat.div_lt_iff_lt_mul hpos).mpr (by omega)
    have hmul1 : size * (r + 1) = size * r + size := Nat.mul_succ size r
    have hmul2 : size * (r + 1) ≤ size * (size - 1) := Nat.mul_le_mul_left size (by omega)
    have e1 : size * (size - 1) + size = size * size := (mul_pred_add size size (by omega)).symm
    have hj1 : i + 1 + size = size * (r + 1) + (c + 1) := by omega
    obtain ⟨hd, hm⟩ := rowcol_of size (r + 1) (c + 1) hpos (by omega)
    rw [hj1, hd, hm]
    exact ⟨by omega, by omega, by omega, by omega⟩

theorem adjacent_bound {size i j : Nat} (h3 : 3 ≤ size) (hi : i < size * size)
    (hj : j ∈ adjacent size i) : j < size * size :=
  (adjacent_mem_spec h3 hi hj).1

theorem adjacent_nodup {size i : Nat} (h3 : 3 ≤ size) (hi : i < size * size) :
    (adjacent size i).Nodup := by
  have h0 : i % size ≠ 0 → 0 < i ∧ i ≠ size := by
    intro hmod
    refine ⟨?_, ?_⟩
    · rcases Nat.eq_zero_or_pos i with rfl | h
      · exact absurd (Nat.zero_mod size) hmod
      · exact h
    · intro hh
      rw [hh, Nat.mod_self] at hmod
      exact hmod rfl
  cases ht : top_edge size i <;> cases hb : bottom_edge size i <;>
    cases hl : left_edge size i <;> cases hr : right_edge size i <;>
    simp [adjacent, ht, hb, hl, hr, above, below, left, right, List.nodup_cons] <;>
    simp only [top_edge, bottom_edge, left_edge, right_edge, decide_eq_true_eq,
      decide_eq_false_iff_not, not_lt, not_le] at ht hb hl hr <;>
    first
      | (have hx := h0 hl; omega)
      | omega

theorem adjacent_length {size i : Nat} (h3 : 3 ≤ size) (hi : i < size * size) :
    (adjacent size i).length =
      if (top_edge size i || bottom_edge size i) && (left_edge size i || right_edge size i)
      then 3
      else
        if top_edge size i || bottom_edge size i || left_edge size i || right_edge size i
        then 5 else 8 := by
  have hm : size ≤ size * (size - 1) := by
    have := Nat.mul_le_mul_left size (show 1 ≤ size - 1 by omega)
    simpa using this
  cases ht : top_edge size i <;> cases hb : bottom_edge size i <;>
    cases hl : left_edge size i <;> cases hr : right_edge size i <;>
    simp [adjacent, ht, hb, hl, hr] <;>
    simp only [top_edge, bottom_edge, left_edge, right_edge, decide_eq_true_eq,
      decide_eq_false_iff_not, not_lt, not_le] at ht hb hl hr <;>
    omega

/-- Claim C5: for every size ≥ 3 and every in-range index i, adjacent yields
no duplicates, never yields i itself, every yielded index stays on the board
with a row offset and a column offset each in the range -1..1 and not both
zero, and the number of yielded indices is 3 at a corner, 5 on a non-corner
edge, and 8 in the interior. -/
theorem c5_adjacent_spec (size i : Nat) (h3 : 3 ≤ size) (hi : i < size * size) :
    (adjacent size i).Nodup ∧
      i ∉ adjacent size i ∧
      (∀ j ∈ adjacent size i,
        j < size * size ∧
          (j / size + 1 = i / size ∨ j / size = i / size ∨ j / size = i / size + 1) ∧
          (j % size + 1 = i % size ∨ j % size = i % size ∨ j % size = i % size + 1) ∧
          ¬(j / size = i / size ∧ j % size = i % size)) ∧
      (adjacent size i).length =
        (if (top_edge size i || bottom_edge size i) && (left_edge size i || right_edge size i)
         then 3
         else
           if top_edge size i || bottom_edge size i || left_edge size i || right_edge size i
           then 5 else 8) := by
  refine ⟨adjacent_nodup h3 hi, ?_, fun j hj => adjacent_mem_spec h3 hi hj,
    adjacent_length h3 hi⟩
  intro hmem
  exact (adjacent_mem_spec h3 hi hmem).2.2.2 ⟨rfl, rfl⟩

/-- Witness for C5 at size 4, index 5 (an interior tile of the 4×4 board). -/
theorem c5_witness :
    (adjacent 4 5).Nodup ∧
      5 ∉ adjacent 4 5 ∧
      (∀ j ∈ adjacent 4 5,
        j < 4 * 4 ∧
          (j / 4 + 1 = 5 / 4 ∨ j / 4 = 5 / 4 ∨ j / 4 = 5 / 4 + 1) ∧
          (j % 4 + 1 = 5 % 4 ∨ j % 4 = 5 % 4 ∨ j % 4 = 5 % 4 + 1) ∧
          ¬(j / 4 = 5 / 4 ∧ j % 4 = 5 % 4)) ∧
      (adjacent 4 5).length =
        (if (top_edge 4 5 || bottom_edge 4 5) && (left_edge 4 5 || right_edge 4 5)
         then 3
         else
           if top_edge 4 5 || bottom_edge 4 5 || left_edge 4 5 || right_edge 4 5
           then 5 else 8) :=
  c5_adjacent_spec 4 5 (by decide) (by decide)

/-! ### Unfolding equations for the loop bodies -/

theorem adj_loop_cons_mem {f : Str → Nat → Finset Nat → Option Bool} {letters : List Str}
    {word : Str} {used : Finset Nat} {index : Nat} {rest : List Nat} (h : index ∈ used) :
    adj_loop f letters word used (index :: rest) = adj_loop f letters word used rest := by
  rw [adj_loop, if_pos h]

theorem adj_loop_cons_none {f : Str → Nat → Finset Nat → Option Bool} {letters : List Str}
    {word : Str} {used : Finset Nat} {index : Nat} {rest : List Nat} (h : index ∉ used)
    (hget : letters[index]? = none) :
    adj_loop f letters word used (index :: rest) = none := by
  rw [adj_loop, if_neg h, hget]

theorem adj_loop_cons_some {f : Str → Nat → Finset Nat → Option Bool} {letters : List Str}
    {word : Str} {used : Finset Nat} {index : Nat} {rest : List Nat} {letter : Str}
    (h : index ∉ used) (hget : letters[index]? = some letter) :
    adj_loop f letters word used (index :: rest) =
      if startswith word letter then
        match f (word.drop letter.length) index (insert index used) with
        | none => none
        | some true => some true
        | some false => adj_loop f letters word used rest
      else adj_loop f letters word used rest := by
  rw [adj_loop, if_neg h, hget]

theorem first_unit_some {e : Bool} {w : Str} (h : w ≠ []) :
    ∃ fr : Str × Str, first_unit e w = some fr := by
  rw [first_unit.eq_def]
  split
  · exact ⟨_, rfl⟩
  · cases w with
    | nil => exact absurd rfl h
    | cons c rest => exact ⟨_, rfl⟩

theorem first_unit_append {e : Bool} {w f r : Str} (h : first_unit e w = some (f, r)) :
    f ++ r = w := by
  rw [first_unit.eq_def] at h
  split at h
  · rw [Option.some.injEq, Prod.mk.injEq] at h
    obtain ⟨h1, h2⟩ := h
    rw [← h1, ← h2]
    exact List.take_append_drop 2 w
  · cases w with
    | nil => exact absurd h (by simp)
    | cons c rest =>
      rw [Option.some.injEq, Prod.mk.injEq] at h
      obtain ⟨h1, h2⟩ := h
      rw [← h1, ← h2]
      rfl

/-! ### check never faults on a well-formed board and a non-empty word -/

theorem adj_loop_total {f : Str → Nat → Finset Nat → Option Bool} {letters : List Str}
    {word : Str} {used : Finset Nat} {js : List Nat}
    (hjs : ∀ j ∈ js, j < letters.length)
    (hf : ∀ w index, index ∈ js → index ∉ used →
      ∃ r, f w index (insert index used) = some r) :
    ∃ r, adj_loop f letters word used js = some r := by
  induction js with
  | nil => exact ⟨false, rfl⟩
  | cons index rest ih =>
    have ihr := ih (fun j hj => hjs j (List.mem_cons_of_mem _ hj))
      (fun w idx hm hn => hf w idx (List.mem_cons_of_mem _ hm) hn)
    by_cases hmem : index ∈ used
    · rw [adj_loop_cons_mem hmem]; exact ihr
    · have hlt := hjs index (List.mem_cons_self _ _)
      have hget : letters[index]? = some letters[index] := List.getElem?_eq_getElem hlt
      rw [adj_loop_cons_some hmem hget]
      by_cases hsw : startswith word letters[index] = true
      · rw [if_pos hsw]
        obtain ⟨r, hr⟩ := hf _ index (List.mem_cons_self _ _) hmem
        rw [hr]
        cases r
        · exact ihr
        · exact ⟨true, rfl⟩
      · rw [if_neg hsw]; exact ihr

theorem check_helper_total {b : Board} (hwf : wf b) :
    ∀ (fuel : Nat) (word : Str) (li : Nat) (used : Finset Nat), li < b.letters.length →
      b.letters.length + 1 ≤ fuel + (used ∩ Finset.range b.letters.length).card →
      ∃ r, check_helper b fuel word li used = some r := by
  obtain ⟨h3, hlen⟩ := hwf
  intro fuel
  induction fuel with
  | zero =>
    intro word li used hli hfuel
    exfalso
    have hcard : (used ∩ Finset.range b.letters.length).card ≤ b.letters.length := by
      have h1 : (used ∩ Finset.range b.letters.length).card ≤
          (Finset.range b.letters.length).card :=
        Finset.card_le_card Finset.inter_subset_right
      simpa [Finset.card_range] using h1
    omega
  | succ fuel ih =>
    intro word li used hli hfuel
    rw [check_helper]
    split
    · exact ⟨true, rfl⟩
    · refine adj_loop_total ?_ ?_
      · intro j hj
        rw [hlen]
        exact adjacent_bound h3 (hlen ▸ hli) hj
      · intro w index hmem hnot
        have hidx : index < b.letters.length := by
          rw [hlen]
          exact adjacent_bound h3 (hlen ▸ hli) hmem
        refine ih w index (insert index used) hidx ?_
        have hin : index ∈ Finset.range b.letters.length := Finset.mem_range.mpr hidx
        rw [Finset.insert_inter_of_mem hin,
          Finset.card_insert_of_not_mem (fun hc => hnot (Finset.mem_of_mem_inter_left hc))]
        omega

theorem check_loop_total {b : Board} (hwf : wf b) (rest first : Str) :
    ∀ (fuel start : Nat), b.letters.length + 1 ≤ fuel + start →
      ∃ r, check_loop b rest first fuel (find b.letters first start) = some r := by
  intro fuel
  induction fuel with
  | zero =>
    intro start hfs
    cases hfind : find b.letters first start with
    | none => exact ⟨false, rfl⟩
    | some index =>
      obtain ⟨h1, h2, h3⟩ := find_some hfind
      exact absurd h2 (by omega)
  | succ fuel ih =>
    intro start hfs
    cases hfind : find b.letters first start with
    | none => exact ⟨false, rfl⟩
    | some index =>
      obtain ⟨hst, hlt, hgd⟩ := find_some hfind
      rw [check_loop]
      have hcard : (({index} : Finset Nat) ∩ Finset.range b.letters.length).card = 1 := by
        rw [Finset.singleton_inter_of_mem (Finset.mem_range.mpr hlt), Finset.card_singleton]
      obtain ⟨r, hr⟩ := check_helper_total hwf (b.letters.length + 1) rest index {index} hlt
        (by omega)
      rw [hr]
      cases r
      · exact ih (index + 1) (by omega)
      · exact ⟨true, rfl⟩

/-- Claim C9: check is partial exactly at the empty word: on a well-formed
grid the empty string faults (IndexError extracting the first unit) while
every non-empty word returns a boolean without faulting. -/
theorem c9_check_totality (b : Board) (hwf : wf b) :
    b.check [] = none ∧ ∀ w : Str, w ≠ [] → ∃ r : Bool, b.check w = some r := by
  constructor
  · rw [Board.check]
    have h : first_unit b.english [] = none := by cases b.english <;> rfl
    rw [h]
  · intro w hw
    obtain ⟨⟨first, rest⟩, hfu⟩ := first_unit_some (e := b.english) hw
    rw [Board.check, hfu]
    exact check_loop_total hwf rest first (b.letters.length + 1) 0 (by omega)

/-- Witness for C9 on the concrete 4×4 test board. -/
theorem c9_witness :
    wf ezoa ∧ ezoa.check [] = none ∧ ∃ r : Bool, ezoa.check (String.data "xyz") = some r := by
  have hwf : wf ezoa := ⟨by decide, by decide⟩
  obtain ⟨h1, h2⟩ := c9_check_totality ezoa hwf
  exact ⟨hwf, h1, h2 _ (by decide)⟩

/-! ### Soundness of check: an accepted word is spelt by a simple path -/

theorem adj_loop_true {f : Str → Nat → Finset Nat → Option Bool} {letters : List Str}
    {word : Str} {used : Finset Nat} {js : List Nat}
    (h : adj_loop f letters word used js = some true) :
    ∃ index letter, index ∈ js ∧ index ∉ used ∧ letters[index]? = some letter ∧
      startswith word letter = true ∧
      f (word.drop letter.length) index (insert index used) = some true := by
  induction js with
  | nil => exact Bool.noConfusion (Option.some.inj h)
  | cons index rest ih =>
    by_cases hmem : index ∈ used
    · rw [adj_loop_cons_mem hmem] at h
      obtain ⟨i, l, h1, h2, h3, h4, h5⟩ := ih h
      exact ⟨i, l, List.mem_cons_of_mem _ h1, h2, h3, h4, h5⟩
    · cases hget : letters[index]? with
      | none => rw [adj_loop_cons_none hmem hget] at h; exact Option.noConfusion h
      | some letter =>
        rw [adj_loop_cons_some hmem hget] at h
        by_cases hsw : startswith word letter = true
        · rw [if_pos hsw] at h
          cases hfr : f (word.drop letter.length) index (insert index used) with
          | none => rw [hfr] at h; exact Option.noConfusion h
          | some r =>
            cases r with
            | true => exact ⟨index, letter, List.mem_cons_self _ _, hmem, hget, hsw, hfr⟩
            | false =>
              rw [hfr] at h
              obtain ⟨i, l, h1, h2, h3, h4, h5⟩ := ih h
              exact ⟨i, l, List.mem_cons_of_mem _ h1, h2, h3, h4, h5⟩
        · rw [if_neg hsw] at h
          obtain ⟨i, l, h1, h2, h3, h4, h5⟩ := ih h
          exact ⟨i, l, List.mem_cons_of_mem _ h1, h2, h3, h4, h5⟩

theorem check_helper_sound {b : Board} :
    ∀ (fuel : Nat) (word : Str) (li : Nat) (used : Finset Nat),
      check_helper b fuel word li used = some true →
      ∃ p : List Nat, (∀ j ∈ p, j ∉ used ∧ j < b.letters.length) ∧ p.Nodup ∧
        List.Chain' (fun x y => y ∈ adjacent b.size x) (li :: p) ∧
        (p.map (fun j => b.letters.getD j [])).flatten = word := by
  intro fuel
  induction fuel with
  | zero => intro word li used h; exact Option.noConfusion h
  | succ fuel ih =>
    intro word li used h
    rw [check_helper] at h
    split at h
    · rename_i hw
      exact ⟨[], by simp, List.nodup_nil, by simp, by simp [hw]⟩
    · obtain ⟨index, letter, hmem, hnot, hget, hsw, hfr⟩ := adj_loop_true h
      obtain ⟨p, hp, hnd, hch, hj⟩ := ih _ _ _ hfr
      refine ⟨index :: p, ?_, ?_, ?_, ?_⟩
      · intro j hj2
        rcases List.mem_cons.mp hj2 with rfl | hj3
        · exact ⟨hnot, (List.getElem?_eq_some.mp hget).1⟩
        · obtain ⟨h1, h2⟩ := hp j hj3
          exact ⟨fun hc => h1 (Finset.mem_insert_of_mem hc), h2⟩
      · refine List.nodup_cons.mpr ⟨?_, hnd⟩
        intro hc
        exact (hp index hc).1 (Finset.mem_insert_self _ _)
      · exact List.chain'_cons.mpr ⟨hmem, hch⟩
      · simp only [List.map_cons, List.flatten_cons]
        have hgd : b.letters.getD index [] = letter := by
          rw [List.getD_eq_getElem?_getD, hget]; rfl
        rw [hgd, hj]
        exact startswith_drop hsw

theorem check_loop_true {b : Board} {rest first : Str} :
    ∀ (fuel start : Nat),
      check_loop b rest first fuel (find b.letters first start) = some true →
      ∃ i, i < b.letters.length ∧ b.letters.getD i [] = first ∧
        check_helper b (b.letters.length + 1) rest i {i} = some true := by
  intro fuel
  induction fuel with
  | zero =>
    intro start h
    cases hfind : find b.letters first start with
    | none => rw [hfind] at h; exact Bool.noConfusion (Option.some.inj h)
    | some index => rw [hfind] at h; exact Option.noConfusion h
  | succ fuel ih =>
    intro start h
    cases hfind : find b.letters first start with
    | none => rw [hfind] at h; exact Bool.noConfusion (Option.some.inj h)
    | some index =>
      rw [hfind, check_loop] at h
      obtain ⟨hst, hlt, hgd⟩ := find_some hfind
      cases hch : check_helper b (b.letters.length + 1) rest index {index} with
      | none => rw [hch] at h; exact Option.noConfusion h
      | some r =>
        cases r with
        | true => exact ⟨index, hlt, hgd, hch⟩
        | false =>
          rw [hch] at h
          exact ih (index + 1) h

/-- Claim C4: every word accepted by check is spelt by a path of pairwise
distinct in-range tile indices joined by the adjacency relation whose tiles
concatenate to the word, so a word whose every spelling would need to revisit
a tile is rejected. -/
theorem c4_check_path (b : Board) (w : Str) (h : b.check w = some true) :
    ∃ p : List Nat, p ≠ [] ∧ p.Nodup ∧
      List.Chain' (fun x y => y ∈ adjacent b.size x) p ∧
      (p.map (fun j => b.letters.getD j [])).flatten = w ∧
      ∀ j ∈ p, j < b.letters.length := by
  rw [Board.check] at h
  cases hfu : first_unit b.english w with
  | none => rw [hfu] at h; exact Option.noConfusion h
  | some fr =>
    obtain ⟨first, rest⟩ := fr
    rw [hfu] at h
    obtain ⟨i, hlt, hgd, hch⟩ := check_loop_true (b.letters.length + 1) 0 h
    obtain ⟨p, hp, hnd, hchain, hjoin⟩ := check_helper_sound _ _ _ _ hch
    refine ⟨i :: p, by simp, ?_, hchain, ?_, ?_⟩
    · refine List.nodup_cons.mpr ⟨?_, hnd⟩
      intro hc
      exact (hp i hc).1 (Finset.mem_singleton_self i)
    · simp only [List.map_cons, List.flatten_cons]
      rw [hgd, hjoin]
      exact first_unit_append hfu
    · intro j hj
      rcases List.mem_cons.mp hj with rfl | hj2
      · exact hlt
      · exact (hp j hj2).2

/-- Witness for C4: the accepted word "tar" on the test board has a simple
path spelling it. -/
theorem c4_witness :
    ∃ p : List Nat, p ≠ [] ∧ p.Nodup ∧
      List.Chain' (fun x y => y ∈ adjacent ezoa.size x) p ∧
      (p.map (fun j => ezoa.letters.getD j [])).flatten = String.data "tar" ∧
      ∀ j ∈ p, j < ezoa.letters.length :=
  c4_check_path ezoa (String.data "tar") (by decide)

/-- Claim C10: on an English board, a word beginning with "qu" is searched
with the whole digraph as its first unit; if no tile equals "qu" the check
returns false, even when single-character "q" and "u" tiles are adjacent. -/
theorem c10_qu_digraph (b : Board) (w : Str) (he : b.english = true)
    (hw : startswith w ['q', 'u'] = true)
    (hq : ∀ t ∈ b.letters, t ≠ ['q', 'u']) : b.check w = some false := by
  rw [Board.check]
  have hfu : first_unit b.english w = some (['q', 'u'], w.drop 2) := by
    rw [first_unit.eq_def, he]
    rw [if_pos (by simp [hw])]
    rw [show w.take 2 = ['q', 'u'] from startswith_take hw]
  rw [hfu]
  show check_loop b (List.drop 2 w) ['q', 'u'] (b.letters.length + 1)
      (find b.letters ['q', 'u'] 0) = some false
  rw [find_none hq, check_loop]

/-- Witness for C10: a board with adjacent single "q" and "u" tiles and no
"qu" tile rejects "quest". -/
theorem c10_witness :
    quSingles.english = true ∧ startswith (String.data "quest") ['q', 'u'] = true ∧
      (∀ t ∈ quSingles.letters, t ≠ ['q', 'u']) ∧
      quSingles.check (String.data "quest") = some false :=
  ⟨rfl, by decide, by decide,
    c10_qu_digraph quSingles (String.data "quest") rfl (by decide) (by decide)⟩

/-! ### all_words yields only dictionary words of sufficient length -/

theorem words_adj_loop_cons_mem {f : Str → Nat → Finset Nat → Option (List Str)}
    {letters : List Str} {word : Str} {used : Finset Nat} {index : Nat} {rest : List Nat}
    (h : index ∈ used) :
    words_adj_loop f letters word used (index :: rest) =
      words_adj_loop f letters word used rest := by
  rw [words_adj_loop, if_pos h]

theorem words_adj_loop_cons_none {f : Str → Nat → Finset Nat → Option (List Str)}
    {letters : List Str} {word : Str} {used : Finset Nat} {index : Nat} {rest : List Nat}
    (h : index ∉ used) (hget : letters[index]? = none) :
    words_adj_loop f letters word used (index :: rest) = none := by
  rw [words_adj_loop, if_neg h, hget]

theorem words_adj_loop_cons_some {f : Str → Nat → Finset Nat → Option (List Str)}
    {letters : List Str} {word : Str} {used : Finset Nat} {index : Nat} {rest : List Nat}
    {letter : Str} (h : index ∉ used) (hget : letters[index]? = some letter) :
    words_adj_loop f letters word used (index :: rest) =
      match f (word ++ letter) index (insert index used) with
      | none => none
      | some ws =>
        match words_adj_loop f letters word used rest with
        | none => none
        | some ws2 => some (ws ++ ws2) := by
  rw [words_adj_loop, if_neg h, hget]

theorem words_adj_loop_sound {f : Str → Nat → Finset Nat → Option (List Str)}
    {letters : List Str} {word : Str} {used : Finset Nat} {P : Str → Prop}
    (hf : ∀ w i u ws, f w i u = some ws → ∀ x ∈ ws, P x) :
    ∀ {js : List Nat} {ws : List Str},
      words_adj_loop f letters word used js = some ws → ∀ x ∈ ws, P x := by
  intro js
  induction js with
  | nil =>
    intro ws h x hx
    obtain rfl := Option.some.inj h
    simp at hx
  | cons index rest ih =>
    intro ws h x hx
    by_cases hmem : index ∈ used
    · rw [words_adj_loop_cons_mem hmem] at h
      exact ih h x hx
    · cases hget : letters[index]? with
      | none => rw [words_adj_loop_cons_none hmem hget] at h; exact Option.noConfusion h
      | some letter =>
        rw [words_adj_loop_cons_some hmem hget] at h
        cases hfr : f (word ++ letter) index (insert index used) with
        | none => rw [hfr] at h; exact Option.noConfusion h
        | some ws1 =>
          rw [hfr] at h
          cases hrest : words_adj_loop f letters word used rest with
          | none => rw [hrest] at h; exact Option.noConfusion h
          | some ws2 =>
            rw [hrest] at h
            obtain rfl := Option.some.inj h
            rcases List.mem_append.mp hx with h1 | h2
            · exact hf _ _ _ _ hfr x h1
            · exact ih hrest x h2

theorem all_words_helper_sound {b : Board} {dct : List Str} {m : Nat} :
    ∀ (fuel : Nat) (word : Str) (li : Nat) (used : Finset Nat) (ws : List Str),
      all_words_helper b dct m fuel word li used = some ws →
      ∀ x ∈ ws, x ∈ dct ∧ m ≤ x.length := by
  intro fuel
  induction fuel with
  | zero => intro word li used ws h; exact Option.noConfusion h
  | succ fuel ih =>
    intro word li used ws h
    rw [all_words_helper] at h
    split at h
    · obtain rfl := Option.some.inj h
      intro x hx
      simp at hx
    · rename_i hne
      have hlt : bisect_left dct word < dct.length :=
        lt_of_le_of_ne (bisect_left_le dct word) hne
      have hfp : ∀ x ∈ (if dct.getD (bisect_left dct word) [] = word ∧ m ≤ word.length
          then [word] else ([] : List Str)), x ∈ dct ∧ m ≤ x.length := by
        intro x hx
        split at hx
        · rename_i hcond
          obtain ⟨heq, hlen⟩ := hcond
          rw [List.mem_singleton] at hx
          subst hx
          refine ⟨?_, hlen⟩
          rw [← heq, List.getD_eq_getElem dct [] hlt]
          exact List.getElem_mem hlt
        · simp at hx
      split at h
      · cases hloop : words_adj_loop (fun w i u => all_words_helper b dct m fuel w i u)
            b.letters word used (adjacent b.size li) with
        | none => rw [hloop] at h; exact Option.noConfusion h
        | some ws1 =>
          rw [hloop] at h
          obtain rfl := Option.some.inj h
          intro x hx
          rcases List.mem_append.mp hx with h1 | h2
          · exact hfp x h1
          · exact words_adj_loop_sound (fun w i u ws' hw => ih w i u ws' hw) hloop x h2
      · obtain rfl := Option.some.inj h
        exact hfp

theorem all_words_loop_sound {b : Board} {dct : List Str} {m : Nat} :
    ∀ (is : List Nat) (acc ws : Finset Str),
      (∀ x ∈ acc, x ∈ dct ∧ m ≤ x.length) →
      all_words_loop b dct m is acc = some ws →
      ∀ x ∈ ws, x ∈ dct ∧ m ≤ x.length := by
  intro is
  induction is with
  | nil =>
    intro acc ws hacc h
    obtain rfl := Option.some.inj h
    exact hacc
  | cons i rest ih =>
    intro acc ws hacc h
    rw [all_words_loop] at h
    cases hget : b.letters[i]? with
    | none => rw [hget] at h; exact Option.noConfusion h
    | some letter =>
      rw [hget] at h
      change (match all_words_helper b dct m (b.letters.length + 1) letter i {i} with
        | none => none
        | some ws1 => all_words_loop b dct m rest (acc ∪ ws1.toFinset)) = some ws at h
      cases hh : all_words_helper b dct m (b.letters.length + 1) letter i {i} with
      | none => rw [hh] at h; exact Option.noConfusion h
      | some ws1 =>
        rw [hh] at h
        refine ih _ _ ?_ h
        intro x hx
        rcases Finset.mem_union.mp hx with h1 | h2
        · exact hacc x h1
        · exact all_words_helper_sound _ _ _ _ _ hh x (List.mem_toFinset.mp h2)

/-- Claim C3: for every grid, sorted dictionary and minLength, every word in
the set returned by all_words is an element of the dictionary and has length
at least minLength. -/
theorem c3_allwords_subset (b : Board) (dct : List Str) (m : Nat) (ws : Finset Str)
    (hs : sortedAsc dct) (h : b.all_words dct m = some ws) :
    ∀ w ∈ ws, w ∈ dct ∧ m ≤ w.length := by
  rw [Board.all_words] at h
  exact all_words_loop_sound _ _ _ (fun x hx => absurd hx (Finset.not_mem_empty x)) h

/-- Witness for C3 on the concrete test board and a one-word dictionary. -/
theorem c3_witness :
    sortedAsc dct3 ∧ ezoa.all_words dct3 3 = some {String.data "tar"} ∧
      ∀ w ∈ ({String.data "tar"} : Finset Str), w ∈ dct3 ∧ 3 ≤ w.length := by
  have hs : sortedAsc dct3 := List.pairwise_singleton _ _
  have he : ezoa.all_words dct3 3 = some {String.data "tar"} := by decide
  exact ⟨hs, he, c3_allwords_subset ezoa dct3 3 _ hs he⟩

/-- Claim C8: all_words is deterministic and idempotent: two calls on the
same grid, dictionary and minLength return identical sets. -/
theorem c8_deterministic (b : Board) (dct : List Str) (m : Nat) (ws1 ws2 : Finset Str)
    (h1 : b.all_words dct m = some ws1) (h2 : b.all_words dct m = some ws2) :
    ws1 = ws2 := by
  rw [h1] at h2
  exact Option.some.inj h2

/-- Witness for C8: two evaluations of all_words on the test board agree. -/
theorem c8_witness : ({String.data "tar"} : Finset Str) = {String.data "tar"} :=
  c8_deterministic ezoa dct3 3 _ _ (by decide) (by decide)

/-! ### all_words with an impossible minimum length -/

theorem words_adj_loop_nil_out {f : Str → Nat → Finset Nat → Option (List Str)}
    {letters : List Str} {word : Str} {used : Finset Nat} {js : List Nat}
    (hjs : ∀ j ∈ js, j < letters.length)
    (hf : ∀ index letter, index ∈ js → index ∉ used → letters[index]? = some letter →
      f (word ++ letter) index (insert index used) = some []) :
    words_adj_loop f letters word used js = some [] := by
  induction js with
  | nil => rfl
  | cons index rest ih =>
    have ihr := ih (fun j hj => hjs j (List.mem_cons_of_mem _ hj))
      (fun idx l hm hn hg => hf idx l (List.mem_cons_of_mem _ hm) hn hg)
    by_cases hmem : index ∈ used
    · rw [words_adj_loop_cons_mem hmem]; exact ihr
    · have hlt := hjs index (List.mem_cons_self _ _)
      have hget : letters[index]? = some letters[index] := List.getElem?_eq_getElem hlt
      rw [words_adj_loop_cons_some hmem hget,
        hf index _ (List.mem_cons_self _ _) hmem hget, ihr]
      rfl

theorem all_words_helper_nil {b : Board} {dct : List Str} {m : Nat}
    (h3 : 3 ≤ b.size) (hlen : b.letters.length = b.size * b.size)
    (htiles : ∀ t ∈ b.letters, t.length ≤ 1) (hm : b.size * b.size < m) :
    ∀ (fuel : Nat) (word : Str) (li : Nat) (used : Finset Nat), li < b.letters.length →
      used ⊆ Finset.range b.letters.length →
      word.length ≤ used.card →
      b.letters.length + 1 ≤ fuel + used.card →
      all_words_helper b dct m fuel word li used = some [] := by
  intro fuel
  induction fuel with
  | zero =>
    intro word li used hli hsub hwl hfuel
    exfalso
    have := Finset.card_le_card hsub
    rw [Finset.card_range] at this
    omega
  | succ fuel ih =>
    intro word li used hli hsub hwl hfuel
    rw [all_words_helper]
    split
    · rfl
    · have hcard : used.card ≤ b.letters.length := by
        have := Finset.card_le_card hsub
        rwa [Finset.card_range] at this
      have hfp : (if dct.getD (bisect_left dct word) [] = word ∧ m ≤ word.length
          then [word] else ([] : List Str)) = [] := by
        rw [if_neg]
        rintro ⟨-, hml⟩
        omega
      split
      · have hloop : words_adj_loop (fun w i u => all_words_helper b dct m fuel w i u)
            b.letters word used (adjacent b.size li) = some [] := by
          refine words_adj_loop_nil_out ?_ ?_
          · intro j hj
            rw [hlen]
            exact adjacent_bound h3 (hlen ▸ hli) hj
          · intro index letter hmem hnot hget
            have hidx : index < b.letters.length := (List.getElem?_eq_some.mp hget).1
            have hexlen : letter.length ≤ 1 := by
              refine htiles letter ?_
              obtain ⟨hh, hrfl⟩ := List.getElem?_eq_some.mp hget
              rw [← hrfl]
              exact List.getElem_mem hh
            refine ih _ index (insert index used) hidx ?_ ?_ ?_
            · intro a ha
              rcases Finset.mem_insert.mp ha with rfl | ha2
              · exact Finset.mem_range.mpr hidx
              · exact hsub ha2
            · rw [List.length_append, Finset.card_insert_of_not_mem hnot]
              omega
            · rw [Finset.card_insert_of_not_mem hnot]
              omega
        rw [hloop]
        show some ((if dct.getD (bisect_left dct word) [] = word ∧ m ≤ word.length
            then [word] else ([] : List Str)) ++ []) = some []
        rw [hfp]
        rfl
      · rw [hfp]

theorem all_words_loop_nil {b : Board} {dct : List Str} {m : Nat}
    (h3 : 3 ≤ b.size) (hlen : b.letters.length = b.size * b.size)
    (htiles : ∀ t ∈ b.letters, t.length ≤ 1) (hm : b.size * b.size < m) :
    ∀ (is : List Nat) (acc : Finset Str), (∀ i ∈ is, i < b.letters.length) →
      all_words_loop b dct m is acc = some acc := by
  intro is
  induction is with
  | nil => intro acc h; rfl
  | cons i rest ih =>
    intro acc h
    have hlt := h i (List.mem_cons_self _ _)
    rw [all_words_loop, List.getElem?_eq_getElem hlt]
    have hh : all_words_helper b dct m (b.letters.length + 1) b.letters[i] i {i} = some [] := by
      refine all_words_helper_nil h3 hlen htiles hm _ _ _ _ hlt ?_ ?_ ?_
      · intro a ha
        rw [Finset.mem_singleton.mp ha]
        exact Finset.mem_range.mpr hlt
      · rw [Finset.card_singleton]
        exact htiles _ (List.getElem_mem hlt)
      · rw [Finset.card_singleton]
        omega
    change (match all_words_helper b dct m (b.letters.length + 1) b.letters[i] i {i} with
      | none => none
      | some ws => all_words_loop b dct m rest (acc ∪ ws.toFinset)) = some acc
    rw [hh]
    show all_words_loop b dct m rest (acc ∪ ([] : List Str).toFinset) = some acc
    rw [show acc ∪ ([] : List Str).toFinset = acc by simp]
    exact ih acc (fun j hj => h j (List.mem_cons_of_mem _ hj))

/-- Claim C6 amended: for every well-formed grid all of whose tiles hold at
most one character, every sorted dictionary and every minLength strictly
greater than size squared, all_words returns the empty set.  (The
single-character restriction is forced: a multi-character tile such as "qu"
lets a path of at most size squared tiles spell a longer word.) -/
theorem c6_amended (b : Board) (dct : List Str) (m : Nat) (hwf : wf b)
    (hs : sortedAsc dct) (htiles : ∀ t ∈ b.letters, t.length ≤ 1)
    (hm : b.size * b.size < m) : b.all_words dct m = some ∅ := by
  obtain ⟨h3, hlen⟩ := hwf
  rw [Board.all_words]
  refine all_words_loop_nil h3 hlen htiles hm _ _ ?_
  intro i hi
  rw [hlen]
  exact List.mem_range.mp hi

/-- Counterexample to C6 as stated: on the well-formed 3×3 board of "qu"
tiles, with the sorted one-word dictionary containing the ten-character word
spelt by five "qu" tiles, minLength 10 exceeds size squared (9) yet
all_words is not empty. -/
theorem c6_counterexample :
    wf quBoard ∧ sortedAsc dctQu ∧ quBoard.size * quBoard.size < 10 ∧
      quBoard.all_words dctQu 10 ≠ some ∅ := by
  refine ⟨⟨by decide, by decide⟩, List.pairwise_singleton _ _, by decide, by decide⟩

/-- Witness for the amended C6 on a concrete single-character board. -/
theorem c6_witness :
    wf quSingles ∧ sortedAsc dct3 ∧ (∀ t ∈ quSingles.letters, t.length ≤ 1) ∧
      quSingles.size * quSingles.size < 10 ∧ quSingles.all_words dct3 10 = some ∅ := by
  have hwf : wf quSingles := ⟨by decide, by decide⟩
  have hs : sortedAsc dct3 := List.pairwise_singleton _ _
  have ht : ∀ t ∈ quSingles.letters, t.length ≤ 1 := by decide
  exact ⟨hwf, hs, ht, by decide, c6_amended quSingles dct3 10 hwf hs ht (by decide)⟩

/-! ### Grid construction does not validate the size -/

/-- Counterexample to C7 as stated: constructing a grid from four tiles, a
size-2 board, succeeds and returns the grid instead of faulting. -/
theorem c7_counterexample :
    (Board.from_list (["a", "b", "c", "d"].map String.data)).size = 2 ∧
      (Board.from_list (["a", "b", "c", "d"].map String.data)).letters =
        ["a", "b", "c", "d"].map String.data := by
  constructor
  · exact Nat.sqrt_eq 2
  · rfl

/-- Claim C7 amended: grid construction performs no size validation: for any
tile list of fewer than nine tiles, from_list returns a board whose size is
below 3 with the letters unchanged; the size check lives only in the command
line entry point. -/
theorem c7_amended (l : List Str) (h : l.length < 9) :
    (Board.from_list l).size < 3 ∧ (Board.from_list l).letters = l := by
  constructor
  · show Nat.sqrt l.length < 3
    rw [Nat.sqrt_lt]
    omega
  · rfl

/-- Witness for the amended C7 on a one-tile list. -/
theorem c7_witness :
    (Board.from_list [['a']]).size < 3 ∧ (Board.from_list [['a']]).letters = [['a']] :=
  c7_amended [['a']] (by decide)

end Boggle
